import Mathlib

/-!
Verification of the KZG commitment core: scalar-field (batch) inversion,
multi-scalar multiplication, commit keys and the monomial-to-Lagrange SRS
transformation.

The scalar field of the curve is embedded as an arbitrary `Field F` with
decidable equality (the concrete BLS12-381 scalar field is one instance);
the G1 group is embedded as an arbitrary `F`-module `G` (group points with
addition and scalar multiplication, supplied by the external curve library).
Fallible code (assertion failures, `unwrap`) is embedded with `Option`.
Concrete witnesses are evaluated over the field with 17 elements together
with its canonical module structure over itself.
-/

set_option maxHeartbeats 1000000

section Definitions

variable {F : Type} [Field F] [DecidableEq F]
variable {G : Type} [AddCommGroup G] [Module F G]

/-- Embeds `Scalar::invert` of the external field library: an inverse when the
element is nonzero, failure on zero. -/
def invertOpt (x : F) : Option F :=
  if x = 0 then none else some x⁻¹

/-- Embeds `inverse` from `crypto/src/lib.rs`: `x.invert().unwrap_or(Scalar::zero())`. -/
def inverse (x : F) : F :=
  (invertOpt x).getD 0

/-- Embeds the first pass of `serial_batch_inversion`: walk the vector,
skipping zero entries, multiplying each nonzero entry into the running
accumulator `tmp` and pushing the updated accumulator onto `prod`.
Returns the pushed list together with the final accumulator. -/
def firstPass : List F → F → List F × F
  | [], tmp => ([], tmp)
  | f :: rest, tmp =>
    if f = 0 then firstPass rest tmp
    else
      let res := firstPass rest (tmp * f)
      (tmp * f :: res.1, res.2)

/-- Embeds the second pass of `serial_batch_inversion`, operating on the
reversed vector: the first argument is the reversed vector, the second the
stream of stored partial products (already reversed, first product dropped,
with a trailing `1`, exactly as built by `prod.rev().skip(1).chain(Some(1))`),
the third the running inverse `tmp`. Zero entries are passed through without
consuming a partial product (the `filter` in the source); when the stream of
partial products is exhausted the `zip` ends and the rest is unchanged. -/
def secondPass : List F → List F → F → List F
  | v, [], _ => v
  | [], _ :: _, _ => []
  | f :: rest, s :: srest, tmp =>
    if f = 0 then f :: secondPass rest (s :: srest) tmp
    else tmp * s :: secondPass rest srest (tmp * f)

/-- Embeds `serial_batch_inversion` from `crypto/src/lib.rs`: first pass of
running products over the nonzero entries, one field inversion of the final
accumulator (`unwrap` embedded as `Option`), then the backward pass. The
in-place backward mutation is embedded by processing the reversed list and
reversing the result. -/
def serial_batch_inversion (v : List F) : Option (List F) :=
  let fp := firstPass v 1
  match invertOpt fp.2 with
  | none => none
  | some tmpInv =>
      some ((secondPass v.reverse (fp.1.reverse.drop 1 ++ [1]) tmpInv).reverse)

/-- Embeds the non-parallel `batch_inversion` from `crypto/src/lib.rs`
(the `rayon`-free path): one serial pass over the whole slice. -/
def batch_inversion (v : List F) : Option (List F) :=
  serial_batch_inversion v

/-- Embeds `batch_inverse` from `crypto/src/lib.rs`, a thin wrapper around
`batch_inversion`. -/
def batch_inverse (v : List F) : Option (List F) :=
  batch_inversion v

/-- Embeds the conversion `blstrs::G1Projective::from(affine)` of the external
curve library: affine and projective coordinates represent the same group
element, so on the embedded group the conversion is the identity. -/
def toProjective (p : G) : G := p

/-- Embeds `blstrs::G1Projective::multi_exp`, an external collaborator of the
repository (spec section 6): the weighted sum of the points by the scalars. -/
def multi_exp (points : List G) (scalars : List F) : G :=
  (List.zipWith (fun p s => s • p) points scalars).sum

/-- Embeds `g1_lincomb` from `crypto/src/lib.rs` (the copy in
`src/commit_key.rs` is line for line the same computation): assert equal
lengths, convert the points to projective form, delegate to `multi_exp` and
convert the result back. The assertion failure is embedded as `none`. -/
def g1_lincomb (points : List G) (scalars : List F) : Option G :=
  if points.length = scalars.length then
    some (multi_exp (points.map toProjective) scalars)
  else none

/-- Instrumented copy of `g1_lincomb` that additionally counts the curve
operations performed (one per affine-to-projective conversion plus one for
the delegated multi-exponentiation), to express that the length assertion
fires before any curve arithmetic is attempted. -/
def g1_lincombTraced (points : List G) (scalars : List F) : Option G × Nat :=
  if points.length = scalars.length then
    (some (multi_exp (points.map toProjective) scalars), points.length + 1)
  else (none, 0)

/-- Embeds the chunk-size computation of the `rayon` form of
`batch_inversion`: `max(num_elems / num_cpus_available, min_elements_per_thread)`
with `min_elements_per_thread = 1`. -/
def chunkSize (numCpus : Nat) (numElems : Nat) : Nat :=
  max (numElems / numCpus) 1

/-- Embeds `par_chunks_mut(k)`: partition into contiguous chunks of `k`
elements each, the last chunk possibly shorter. -/
def chunksOf {α : Type} (k : Nat) (v : List α) : List (List α) :=
  if h : v.length = 0 ∨ k = 0 then []
  else v.take k :: chunksOf k (v.drop k)
termination_by v.length
decreasing_by
  rcases not_or.mp h with ⟨hv, hk⟩
  simp only [List.length_drop]
  omega

/-- Embeds the `rayon` form of `batch_inversion` from `crypto/src/lib.rs`:
partition the slice into contiguous chunks of
`max(num_elems / num_cpus_available, 1)` elements and run
`serial_batch_inversion` independently on each chunk, in place. -/
def batch_inversion_chunked (numCpus : Nat) (v : List F) : Option (List F) :=
  ((chunksOf (chunkSize numCpus v.length) v).mapM serial_batch_inversion).map
    List.flatten

/-- Embeds the struct `CommitKey` from `src/commit_key.rs`: the key committing
to polynomials in monomial form, a vector of G1 points. -/
structure CommitKey (G : Type) where
  inner : List G
deriving DecidableEq

/-- Embeds `CommitKey::new`: asserts that the point vector is non-empty
(the assertion failure is embedded as `none`). -/
def CommitKey.new (points : List G) : Option (CommitKey G) :=
  if points.isEmpty then none else some ⟨points⟩

/-- Embeds the struct `CommitKeyLagrange` from `src/commit_key.rs`: the key
committing to polynomials in Lagrange form. -/
structure CommitKeyLagrange (G : Type) where
  inner : List G
deriving DecidableEq

/-- Embeds `CommitKeyLagrange::new`: asserts `points.len() > 1`. -/
def CommitKeyLagrange.new (points : List G) : Option (CommitKeyLagrange G) :=
  if 1 < points.length then some ⟨points⟩ else none

/-- Embeds `CommitKeyLagrange::commit`: one `g1_lincomb` of the key points
weighted by the evaluations of the polynomial. -/
def CommitKeyLagrange.commit (key : CommitKeyLagrange G) (evaluations : List F) :
    Option G :=
  g1_lincomb key.inner evaluations

/-- Embeds `CommitKeyLagrange::max_degree`: the number of points minus one. -/
def CommitKeyLagrange.max_degree (key : CommitKeyLagrange G) : Nat :=
  key.inner.length - 1

/-- Modelled from the spec: the module holding `Domain` and `ifft_g1`
(`domain.rs`) is not among the available sources. Following spec sections 3
and 4.3, a domain is an ordered sequence of `n` roots of unity
`ω^0, ω^1, ..., ω^(n-1)` for a primitive `n`-th root of unity `ω`, where the
size `n` is a power of two supported by the field (in particular `n` is
nonzero in the field, so `1/n` exists for the inverse FFT normalization). -/
structure Domain (F : Type) [Field F] where
  n : Nat
  ω : F
  hpos : 0 < n
  hpow2 : ∃ k, n = 2 ^ k
  hprim : IsPrimitiveRoot ω n
  hchar : (n : F) ≠ 0

/-- Modelled from the spec: the canonical ordered root list of the domain
(spec section 3, the `roots` field read by the `transform_srs` test). -/
def Domain.roots (d : Domain F) : List F :=
  List.ofFn fun i : Fin d.n => d.ω ^ (i : Nat)

/-- Modelled from the spec: `Domain::ifft_g1`, the inverse FFT generalized to
group elements (spec section 4.3). The radix-2 inverse transform computes the
inverse discrete Fourier transform with its `1/n` normalization: entry `i` of
the output is `(1/n) • Σ_j ω^(-(i*j)) • v_j`. Entries past the end of the
input vector are read as zero; callers always pass a vector of length `n`. -/
def Domain.ifft_g1 (d : Domain F) (v : List G) : List G :=
  List.ofFn fun i : Fin d.n =>
    (d.n : F)⁻¹ • ∑ j ∈ Finset.range d.n, (d.ω ^ ((i : Nat) * j))⁻¹ • v.getD j 0

/-- Embeds `CommitKey::into_lagrange` from `src/commit_key.rs`: apply
`ifft_g1` over the domain to the stored points. -/
def CommitKey.into_lagrange (key : CommitKey G) (d : Domain F) :
    CommitKeyLagrange G :=
  ⟨d.ifft_g1 key.inner⟩

/-- Embeds `eval_coeff_poly` from the test module of `src/commit_key.rs`:
direct evaluation of a coefficient-form polynomial,
`Σ_j input_point^j * poly[j]`. -/
def eval_coeff_poly (poly : List F) (input_point : F) : F :=
  ∑ j ∈ Finset.range poly.length, input_point ^ j * poly.getD j 0

end Definitions

instance : Fact (Nat.Prime 17) := ⟨by norm_num⟩

/-- Concrete domain of size 16 over the field with 17 elements, used to
instantiate the general theorems on concrete inputs: 3 is a primitive
16-th root of unity modulo 17. -/
def dom16 : Domain (ZMod 17) where
  n := 16
  ω := 3
  hpos := by decide
  hpow2 := ⟨4, rfl⟩
  hprim := by
    rw [IsPrimitiveRoot.iff (by decide)]
    have h : ∀ l < 16, 0 < l → (3 : ZMod 17) ^ l ≠ 1 := by decide
    exact ⟨by decide, fun l h1 h2 => h l h2 h1⟩
  hchar := by decide

/-- Concrete domain of size one over the field with 17 elements (the size is
the power of two `2^0`, and `1` is a primitive first root of unity). -/
def dom1 : Domain (ZMod 17) where
  n := 1
  ω := 1
  hpos := by decide
  hpow2 := ⟨0, rfl⟩
  hprim := IsPrimitiveRoot.one
  hchar := by decide

/-- Concrete monomial SRS mirroring the `transform_srs` test: the powers of
the secret 1234567 (reduced in the witness field) applied to the generator. -/
def srs16 : List (ZMod 17) :=
  List.ofFn fun i : Fin 16 => (1234567 : ZMod 17) ^ (i : Nat)

/-- Concrete coefficient vector mirroring the `transform_srs` test:
the scalars 0, 1, ..., 15. -/
def coeffs16 : List (ZMod 17) :=
  List.ofFn fun i : Fin 16 => ((i : Nat) : ZMod 17)

section ScalarUtilProofs

variable {F : Type} [Field F] [DecidableEq F]

theorem inverse_zero : inverse (0 : F) = 0 := by
  simp [inverse, invertOpt]

theorem inverse_of_ne_zero {x : F} (hx : x ≠ 0) : inverse x = x⁻¹ := by
  simp [inverse, invertOpt, hx]

theorem inverse_involutive {x : F} (hx : x ≠ 0) : inverse (inverse x) = x := by
  rw [inverse_of_ne_zero hx, inverse_of_ne_zero (inv_ne_zero hx), inv_inv]

theorem firstPass_snd_ne_zero (v : List F) (t : F) (ht : t ≠ 0) :
    (firstPass v t).2 ≠ 0 := by
  induction v generalizing t with
  | nil => simpa [firstPass] using ht
  | cons f rest ih =>
    by_cases hf : f = 0
    · simpa [firstPass, hf] using ih t ht
    · simp only [firstPass, if_neg hf]
      exact ih (t * f) (mul_ne_zero ht hf)

theorem firstPass_append (v : List F) (x : F) (t : F) :
    firstPass (v ++ [x]) t =
      if x = 0 then firstPass v t
      else ((firstPass v t).1 ++ [(firstPass v t).2 * x], (firstPass v t).2 * x) := by
  induction v generalizing t with
  | nil =>
    by_cases hx : x = 0 <;> simp [firstPass, hx]
  | cons f rest ih =>
    by_cases hx : x = 0
    · subst hx
      by_cases hf : f = 0 <;> simp [firstPass, hf, ih]
    · by_cases hf : f = 0 <;> simp [firstPass, hf, hx, ih]

theorem firstPass_fst_nil (v : List F) (t : F) (h : (firstPass v t).1 = []) :
    (firstPass v t).2 = t ∧ ∀ x ∈ v, x = 0 := by
  induction v generalizing t with
  | nil => simp [firstPass]
  | cons f rest ih =>
    by_cases hf : f = 0
    · simp only [firstPass, if_pos hf] at h ⊢
      obtain ⟨h1, h2⟩ := ih t h
      exact ⟨h1, by simpa [hf] using h2⟩
    · simp [firstPass, hf] at h

theorem firstPass_fst_concat (v : List F) (t : F) :
    (firstPass v t).1 = [] ∨ ∃ l, (firstPass v t).1 = l ++ [(firstPass v t).2] := by
  induction v generalizing t with
  | nil => left; simp [firstPass]
  | cons f rest ih =>
    by_cases hf : f = 0
    · simpa [firstPass, hf] using ih t
    · right
      rcases ih (t * f) with h | ⟨l, hl⟩
      · refine ⟨[], ?_⟩
        have h2 := (firstPass_fst_nil rest (t * f) h).1
        simp [firstPass, hf, h, h2]
      · exact ⟨t * f :: l, by simp [firstPass, hf, hl]⟩

theorem secondPass_nil (v : List F) (tmp : F) : secondPass v [] tmp = v := by
  cases v <;> simp [secondPass]

theorem map_inverse_eq_self (v : List F) (h : ∀ x ∈ v, x = 0) :
    v.map inverse = v := by
  induction v with
  | nil => simp
  | cons f rest ih =>
    have hf : f = 0 := h f (by simp)
    have hrest : ∀ x ∈ rest, x = 0 := fun x hx => h x (by simp [hx])
    simp [hf, inverse_zero, ih hrest]

/-- Correctness of the backward pass against the forward pass: fed with the
partial-product stream and inverted accumulator produced by the first pass on
the reversed input, the second pass inverts every nonzero entry in place and
leaves zeros unchanged. -/
theorem secondPass_spec (u : List F) :
    secondPass u ((firstPass u.reverse 1).1.reverse.drop 1 ++ [1])
        ((firstPass u.reverse 1).2)⁻¹
      = u.map inverse := by
  induction u with
  | nil => simp [firstPass, secondPass]
  | cons x u2 ih =>
    rw [List.reverse_cons, firstPass_append]
    by_cases hx : x = 0
    · rw [if_pos hx]
      rcases hS : (firstPass u2.reverse 1).1.reverse.drop 1 ++ [1] with _ | ⟨s, srest⟩
      · exact absurd hS (by simp)
      · rw [secondPass, if_pos hx, ← hS, ih]
        simp [hx, inverse_zero]
    · rw [if_neg hx]
      have hT2 : (firstPass u2.reverse 1).2 ≠ 0 :=
        firstPass_snd_ne_zero u2.reverse 1 one_ne_zero
      rcases firstPass_fst_concat u2.reverse 1 with hnil | ⟨l, hl⟩
      · obtain ⟨hT2eq, hzero⟩ := firstPass_fst_nil u2.reverse 1 hnil
        have hu2 : ∀ y ∈ u2, y = 0 := fun y hy => hzero y (by simpa using hy)
        rw [hnil, hT2eq]
        simp only [List.nil_append, List.reverse_cons, List.reverse_nil,
          List.nil_append, List.drop_succ_cons, List.drop_nil]
        rw [secondPass, if_neg hx, secondPass_nil]
        rw [List.map_cons, inverse_of_ne_zero hx, map_inverse_eq_self u2 hu2]
        simp
      · rw [hl]
        have hrev : ((firstPass u2.reverse 1).1.reverse.drop 1 ++ [1])
            = l.reverse ++ [1] := by
          rw [hl]; simp
        rw [show (l ++ [(firstPass u2.reverse 1).2]) ++ [(firstPass u2.reverse 1).2 * x]
              = l ++ ([(firstPass u2.reverse 1).2] ++ [(firstPass u2.reverse 1).2 * x]) by
            simp]
        simp only [List.reverse_append, List.reverse_cons, List.reverse_nil,
          List.nil_append, List.cons_append, List.drop_succ_cons, List.drop_nil,
          List.drop_zero]
        rw [secondPass, if_neg hx]
        have hhead : ((firstPass u2.reverse 1).2 * x)⁻¹ * (firstPass u2.reverse 1).2
            = inverse x := by
          rw [mul_inv_rev, inverse_of_ne_zero hx, mul_assoc, inv_mul_cancel₀ hT2, mul_one]
        have htmp : ((firstPass u2.reverse 1).2 * x)⁻¹ * x
            = ((firstPass u2.reverse 1).2)⁻¹ := by
          rw [mul_inv_rev, mul_comm, ← mul_assoc, mul_inv_cancel₀ hx, one_mul]
        rw [hhead, htmp, ← hrev, ih]
        simp

/-- Central lemma: `serial_batch_inversion` succeeds on every input and
replaces each entry by `inverse` of that entry. -/
theorem serial_batch_inversion_eq_map (v : List F) :
    serial_batch_inversion v = some (v.map inverse) := by
  have hT : (firstPass v 1).2 ≠ 0 := firstPass_snd_ne_zero v 1 one_ne_zero
  have h := secondPass_spec (F := F) v.reverse
  rw [List.reverse_reverse] at h
  simp only [serial_batch_inversion, invertOpt, if_neg hT]
  rw [h, List.map_reverse, List.reverse_reverse]

end ScalarUtilProofs

section MSMProofs

variable {F : Type} [Field F]
variable {G : Type} [AddCommGroup G] [Module F G]

theorem map_toProjective (points : List G) : points.map toProjective = points := by
  have h : (toProjective : G → G) = id := rfl
  rw [h, List.map_id]

theorem multi_exp_eq_sum (points : List G) (scalars : List F)
    (h : points.length = scalars.length) :
    multi_exp points scalars
      = ∑ i ∈ Finset.range points.length, scalars.getD i 0 • points.getD i 0 := by
  induction points generalizing scalars with
  | nil => simp [multi_exp]
  | cons p ps ih =>
    cases scalars with
    | nil => simp at h
    | cons s ss =>
      have hih := ih ss (by simpa using h)
      simp only [multi_exp] at hih ⊢
      rw [List.zipWith_cons_cons, List.sum_cons, List.length_cons,
        Finset.sum_range_succ']
      simp only [List.getD_cons_succ, List.getD_cons_zero]
      rw [hih]
      exact add_comm _ _

end MSMProofs

section ChunkingProofs

variable {α : Type}

theorem chunksOf_eq (k : Nat) (v : List α) :
    chunksOf k v
      = if v.length = 0 ∨ k = 0 then [] else v.take k :: chunksOf k (v.drop k) := by
  rw [chunksOf]
  exact dite_eq_ite

/-- Concatenating the chunks gives back the original list. -/
theorem chunksOf_flatten (k : Nat) (hk : k ≠ 0) (v : List α) :
    (chunksOf k v).flatten = v := by
  generalize hn : v.length = n
  induction n using Nat.strong_induction_on generalizing v with
  | _ n ih =>
    by_cases hv : v = []
    · subst hv
      rw [chunksOf_eq]
      simp
    · rw [chunksOf_eq, if_neg (by simp [List.length_eq_zero, hv, hk]),
        List.flatten_cons]
      have hlt : (v.drop k).length < n := by
        subst hn
        have hpos : 0 < v.length := List.length_pos.mpr hv
        simp only [List.length_drop]
        omega
      rw [ih (v.drop k).length hlt (v.drop k) rfl]
      exact List.take_append_drop k v

/-- Every chunk is nonempty and no longer than the requested chunk size. -/
theorem chunksOf_mem (k : Nat) (hk : k ≠ 0) (v : List α) (ch : List α)
    (hch : ch ∈ chunksOf k v) : ch ≠ [] ∧ ch.length ≤ k := by
  suffices h : ∀ n (v : List α), v.length = n →
      ∀ ch ∈ chunksOf k v, ch ≠ [] ∧ ch.length ≤ k by
    exact h v.length v rfl ch hch
  intro n
  induction n using Nat.strong_induction_on with
  | _ n ih =>
    intro v hn ch hch
    by_cases hv : v = []
    · subst hv
      rw [chunksOf_eq] at hch
      simp at hch
    · rw [chunksOf_eq, if_neg (by simp [List.length_eq_zero, hv, hk])] at hch
      rcases List.mem_cons.mp hch with rfl | hmem
      · refine ⟨by simp [List.take_eq_nil_iff, hv, hk], ?_⟩
        rw [List.length_take]
        exact min_le_left _ _
      · have hpos : 0 < v.length := List.length_pos.mpr hv
        exact ih (v.drop k).length
          (by simp only [List.length_drop]; omega) (v.drop k) rfl ch hmem

/-- The number of chunks is the length divided by the chunk size, rounded up. -/
theorem chunksOf_length (k : Nat) (hk : k ≠ 0) (v : List α) :
    (chunksOf k v).length = (v.length + k - 1) / k := by
  generalize hn : v.length = n
  induction n using Nat.strong_induction_on generalizing v with
  | _ n ih =>
    by_cases hv : v = []
    · subst hv
      simp only [List.length_nil] at hn
      rw [chunksOf_eq]
      simp only [List.length_nil, if_pos (Or.inl rfl), List.length_nil]
      subst hn
      exact (Nat.div_eq_of_lt (by omega)).symm
    · have hpos : 0 < v.length := List.length_pos.mpr hv
      rw [chunksOf_eq, if_neg (by simp [List.length_eq_zero, hv, hk]),
        List.length_cons]
      have hlt : (v.drop k).length < n := by
        simp only [List.length_drop]
        omega
      rw [ih (v.drop k).length hlt (v.drop k) rfl]
      simp only [List.length_drop]
      rw [hn]
      rcases Nat.lt_or_ge n k with hnk | hnk
      · have hd : n - k = 0 := by omega
        rw [hd]
        have h1 : 0 + k - 1 = k - 1 := by omega
        have h2 : n + k - 1 = (n - 1) + k := by omega
        rw [h1, h2, Nat.add_div_right _ (by omega), Nat.div_eq_of_lt (by omega),
          Nat.div_eq_of_lt (by omega)]
      · have h1 : n - k + k - 1 = n - 1 := by omega
        have h2 : n + k - 1 = (n - 1) + k := by omega
        rw [h1, h2, Nat.add_div_right _ (by omega)]

theorem chunkSize_ne_zero (numCpus : Nat) (numElems : Nat) :
    chunkSize numCpus numElems ≠ 0 := by
  simp [chunkSize, Nat.max_eq_zero_iff]

end ChunkingProofs

section ChunkedInversionProofs

variable {F : Type} [Field F] [DecidableEq F]

theorem mapM_serial_batch_inversion (l : List (List F)) :
    l.mapM serial_batch_inversion
      = some (l.map (fun ch => ch.map inverse)) := by
  induction l with
  | nil => rfl
  | cons ch rest ih =>
    rw [List.mapM_cons, serial_batch_inversion_eq_map, ih]
    rfl

end ChunkedInversionProofs

section TransformSRSProofs

variable {F : Type} [Field F]
variable {G : Type} [AddCommGroup G] [Module F G]

theorem Domain.omega_ne_zero (d : Domain F) : d.ω ≠ 0 := by
  intro h
  have h1 := d.hprim.pow_eq_one
  rw [h, zero_pow d.hpos.ne'] at h1
  exact zero_ne_one h1

/-- Orthogonality of the domain roots: the geometric sum of the ratio of two
roots over the whole domain is `n` on the diagonal and `0` off it. -/
theorem Domain.sum_pow_ratio (d : Domain F) (a b : Nat) (ha : a < d.n)
    (hb : b < d.n) :
    ∑ i ∈ Finset.range d.n, (d.ω ^ a * (d.ω ^ b)⁻¹) ^ i
      = if a = b then (d.n : F) else 0 := by
  by_cases hab : a = b
  · subst hab
    rw [if_pos rfl, mul_inv_cancel₀ (pow_ne_zero _ d.omega_ne_zero)]
    simp [Finset.sum_const, Finset.card_range]
  · rw [if_neg hab]
    set ζ := d.ω ^ a * (d.ω ^ b)⁻¹ with hζ
    have hζn : ζ ^ d.n = 1 := by
      rw [hζ, mul_pow, inv_pow, ← pow_mul, ← pow_mul, Nat.mul_comm a d.n,
        Nat.mul_comm b d.n, pow_mul, pow_mul, d.hprim.pow_eq_one, one_pow,
        one_pow, inv_one, mul_one]
    have hζ1 : ζ ≠ 1 := by
      intro h1
      apply hab
      apply d.hprim.pow_inj ha hb
      rwa [hζ, mul_inv_eq_one₀ (pow_ne_zero _ d.omega_ne_zero)] at h1
    have hgeom := geom_sum_mul ζ d.n
    rw [hζn, sub_self] at hgeom
    rcases mul_eq_zero.mp hgeom with h | h
    · exact h
    · exact absurd (sub_eq_zero.mp h) hζ1

theorem Domain.roots_getD (d : Domain F) (i : Nat) (hi : i < d.n) :
    d.roots.getD i 0 = d.ω ^ i := by
  rw [Domain.roots, List.getD_eq_getElem _ _ (by simpa using hi),
    List.getElem_ofFn]

theorem map_eval_getD (d : Domain F) (coeffs : List F) (i : Nat)
    (hi : i < d.n) :
    (d.roots.map (eval_coeff_poly coeffs)).getD i 0
      = eval_coeff_poly coeffs (d.ω ^ i) := by
  have hlen : i < (d.roots.map (eval_coeff_poly coeffs)).length := by
    simp [Domain.roots, hi]
  rw [List.getD_eq_getElem _ _ hlen, List.getElem_map]
  congr 1
  rw [← Domain.roots_getD d i hi, List.getD_eq_getElem]

theorem ifft_g1_getD (d : Domain F) (v : List G) (i : Nat) (hi : i < d.n) :
    (d.ifft_g1 v).getD i 0
      = (d.n : F)⁻¹
          • ∑ j ∈ Finset.range d.n, (d.ω ^ (i * j))⁻¹ • v.getD j 0 := by
  rw [Domain.ifft_g1, List.getD_eq_getElem _ _ (by simpa using hi),
    List.getElem_ofFn]

/-- The inverse FFT of the evaluation vector recovers the coefficients: the
weighted sum of the evaluations against row `j` of the inverse DFT matrix is
exactly coefficient `j`. -/
theorem ifft_coeff_recovery (d : Domain F) (coeffs : List F)
    (h2 : coeffs.length = d.n) (j : Nat) (hj : j < d.n) :
    ∑ i ∈ Finset.range d.n,
        eval_coeff_poly coeffs (d.ω ^ i) * ((d.n : F)⁻¹ * (d.ω ^ (i * j))⁻¹)
      = coeffs.getD j 0 := by
  have hstep : ∀ i ∈ Finset.range d.n,
      eval_coeff_poly coeffs (d.ω ^ i) * ((d.n : F)⁻¹ * (d.ω ^ (i * j))⁻¹)
        = ∑ k ∈ Finset.range d.n,
            coeffs.getD k 0 * (d.n : F)⁻¹ * (d.ω ^ k * (d.ω ^ j)⁻¹) ^ i := by
    intro i _
    rw [eval_coeff_poly, h2, Finset.sum_mul]
    apply Finset.sum_congr rfl
    intro k _
    rw [mul_pow, inv_pow, ← pow_mul, ← pow_mul, ← pow_mul, Nat.mul_comm k i,
      Nat.mul_comm j i]
    field_simp
    ring
  rw [Finset.sum_congr rfl hstep, Finset.sum_comm]
  have hinner : ∀ k ∈ Finset.range d.n,
      ∑ i ∈ Finset.range d.n,
          coeffs.getD k 0 * (d.n : F)⁻¹ * (d.ω ^ k * (d.ω ^ j)⁻¹) ^ i
        = coeffs.getD k 0 * (d.n : F)⁻¹ * (if k = j then (d.n : F) else 0) := by
    intro k hk
    rw [← Finset.mul_sum, d.sum_pow_ratio k j (Finset.mem_range.mp hk) hj]
  rw [Finset.sum_congr rfl hinner,
    Finset.sum_eq_single_of_mem j (Finset.mem_range.mpr hj)]
  · rw [if_pos rfl, mul_assoc, inv_mul_cancel₀ d.hchar, mul_one]
  · intro b _ hbj
    rw [if_neg hbj, mul_zero]

end TransformSRSProofs

section Claims

variable {F : Type} [Field F] [DecidableEq F]
variable {G : Type} [AddCommGroup G] [Module F G]

/-- Claim C1: committing to a polynomial via a monomial commit key equals
committing via the Lagrange key obtained from it by `into_lagrange`:
`g1_lincomb(monomial SRS, coefficients)` equals
`g1_lincomb(into_lagrange(monomial SRS, domain), evaluations at the roots)`
for every point vector and coefficient vector whose lengths match the
domain size. -/
theorem transform_srs (d : Domain F) (srs : List G) (coeffs : List F)
    (h1 : srs.length = d.n) (h2 : coeffs.length = d.n) :
    g1_lincomb srs coeffs
      = g1_lincomb ((CommitKey.mk srs).into_lagrange d).inner
          (d.roots.map (eval_coeff_poly coeffs)) := by
  have hL : ((CommitKey.mk srs).into_lagrange d).inner = d.ifft_g1 srs := rfl
  rw [hL]
  have hlen1 : (d.ifft_g1 srs).length = d.n := by simp [Domain.ifft_g1]
  have hlen2 : (d.roots.map (eval_coeff_poly coeffs)).length = d.n := by
    simp [Domain.roots]
  rw [g1_lincomb, g1_lincomb, if_pos (by rw [h1, h2]),
    if_pos (by rw [hlen1, hlen2]), map_toProjective, map_toProjective]
  congr 1
  rw [multi_exp_eq_sum _ _ (by rw [h1, h2]),
    multi_exp_eq_sum _ _ (by rw [hlen1, hlen2]), h1, hlen1]
  symm
  calc
    ∑ i ∈ Finset.range d.n,
        (d.roots.map (eval_coeff_poly coeffs)).getD i 0 • (d.ifft_g1 srs).getD i 0
      = ∑ i ∈ Finset.range d.n, ∑ j ∈ Finset.range d.n,
          (eval_coeff_poly coeffs (d.ω ^ i)
            * ((d.n : F)⁻¹ * (d.ω ^ (i * j))⁻¹)) • srs.getD j 0 := by
        apply Finset.sum_congr rfl
        intro i hi
        rw [map_eval_getD d coeffs i (Finset.mem_range.mp hi),
          ifft_g1_getD d srs i (Finset.mem_range.mp hi), smul_smul,
          Finset.smul_sum]
        apply Finset.sum_congr rfl
        intro j _
        rw [smul_smul, mul_assoc]
    _ = ∑ j ∈ Finset.range d.n,
          (∑ i ∈ Finset.range d.n,
            eval_coeff_poly coeffs (d.ω ^ i)
              * ((d.n : F)⁻¹ * (d.ω ^ (i * j))⁻¹)) • srs.getD j 0 := by
        rw [Finset.sum_comm]
        apply Finset.sum_congr rfl
        intro j _
        rw [Finset.sum_smul]
    _ = ∑ j ∈ Finset.range d.n, coeffs.getD j 0 • srs.getD j 0 := by
        apply Finset.sum_congr rfl
        intro j hj
        rw [ifft_coeff_recovery d coeffs h2 j (Finset.mem_range.mp hj)]

/-- Witness for claim C1 at the inputs of the `transform_srs` test: degree 16,
coefficients 0, 1, ..., 15 and secret 1234567 (reduced in the witness
field with 17 elements, where 3 generates the order-16 root subgroup). -/
theorem transform_srs_witness :
    g1_lincomb srs16 coeffs16
      = g1_lincomb ((CommitKey.mk srs16).into_lagrange dom16).inner
          (dom16.roots.map (eval_coeff_poly coeffs16)) :=
  transform_srs dom16 srs16 coeffs16 (by decide) (by decide)

/-- Claim C2: `batch_inverse` replaces each nonzero entry by its inverse and
leaves zero entries unchanged; consequently pointwise re-inversion after
`batch_inverse` returns the original vector for any all-nonzero input. -/
theorem batch_inverse_spec (v : List F) :
    batch_inverse v = some (v.map inverse) ∧
      ((∀ x ∈ v, x ≠ 0) →
        (batch_inverse v).map (List.map inverse) = some v) := by
  constructor
  · rw [batch_inverse, batch_inversion, serial_batch_inversion_eq_map]
  · intro hv
    rw [batch_inverse, batch_inversion, serial_batch_inversion_eq_map,
      Option.map_some', List.map_map]
    have h : v.map (inverse ∘ inverse) = v.map id :=
      List.map_congr_left fun x hx => inverse_involutive (hv x hx)
    rw [h, List.map_id]

/-- Witness for claim C2 on the all-nonzero vector `[2, 3]` modulo 17. -/
theorem batch_inverse_spec_witness :
    batch_inverse ([2, 3] : List (ZMod 17)) = some ([2, 3].map inverse) ∧
      (batch_inverse ([2, 3] : List (ZMod 17))).map (List.map inverse)
        = some [2, 3] :=
  ⟨(batch_inverse_spec [2, 3]).1, (batch_inverse_spec [2, 3]).2 (by decide)⟩

/-- Claim C3: the chunked parallel form of `batch_inversion` produces a result
identical to running `serial_batch_inversion` once over the whole slice, for
every input slice and every available worker count. -/
theorem batch_inversion_chunked_eq (numCpus : Nat) (v : List F) :
    batch_inversion_chunked numCpus v = serial_batch_inversion v := by
  rw [batch_inversion_chunked, mapM_serial_batch_inversion,
    serial_batch_inversion_eq_map, Option.map_some', ← List.map_flatten,
    chunksOf_flatten _ (chunkSize_ne_zero numCpus v.length)]

/-- Claim C4: for equal-length slices of points and scalars, `g1_lincomb`
returns the group element `Σ scalars[i] • points[i]`. -/
theorem g1_lincomb_spec (points : List G) (scalars : List F)
    (h : points.length = scalars.length) :
    g1_lincomb points scalars
      = some (∑ i ∈ Finset.range points.length,
          scalars.getD i 0 • points.getD i 0) := by
  rw [g1_lincomb, if_pos h, map_toProjective, multi_exp_eq_sum _ _ h]

/-- Witness for claim C4 on concrete slices of length two modulo 17. -/
theorem g1_lincomb_spec_witness :
    g1_lincomb ([5, 7] : List (ZMod 17)) ([2, 3] : List (ZMod 17))
      = some (∑ i ∈ Finset.range 2,
          ([2, 3] : List (ZMod 17)).getD i 0
            • ([5, 7] : List (ZMod 17)).getD i 0) :=
  g1_lincomb_spec [5, 7] [2, 3] rfl

/-- Claim C5: for slices of unequal length, `g1_lincomb` fails with a hard,
immediately detected error on every call, and the failure occurs before any
curve arithmetic (zero conversions and no multi-exponentiation performed). -/
theorem g1_lincomb_mismatch (points : List G) (scalars : List F)
    (h : points.length ≠ scalars.length) :
    g1_lincomb points scalars = none ∧
      g1_lincombTraced points scalars = (none, 0) := by
  constructor
  · rw [g1_lincomb, if_neg h]
  · rw [g1_lincombTraced, if_neg h]

/-- Witness for claim C5 on a one-point, zero-scalar call modulo 17. -/
theorem g1_lincomb_mismatch_witness :
    g1_lincomb ([5] : List (ZMod 17)) ([] : List (ZMod 17)) = none ∧
      g1_lincombTraced ([5] : List (ZMod 17)) ([] : List (ZMod 17))
        = (none, 0) :=
  g1_lincomb_mismatch [5] [] (by decide)

/-- Claim C6: `inverse` returns the multiplicative inverse on nonzero input
and returns the field zero, without failing, on zero input. -/
theorem inverse_spec (x : F) :
    (x = 0 → inverse x = 0) ∧
      (x ≠ 0 → inverse x * x = 1 ∧ inverse x = x⁻¹) := by
  constructor
  · rintro rfl
    exact inverse_zero
  · intro hx
    refine ⟨?_, inverse_of_ne_zero hx⟩
    rw [inverse_of_ne_zero hx, inv_mul_cancel₀ hx]

/-- Witness for claim C6 at the inputs 0 and 5 modulo 17. -/
theorem inverse_spec_witness :
    inverse (0 : ZMod 17) = 0 ∧ inverse (5 : ZMod 17) * 5 = 1 :=
  ⟨(inverse_spec 0).1 rfl, ((inverse_spec 5).2 (by decide)).1⟩

/-- Claim C7: `CommitKey::new` fails exactly on the empty point sequence and
stores the points unchanged otherwise; `CommitKeyLagrange::new` fails exactly
on sequences of length at most one. -/
theorem commit_key_new_spec :
    (CommitKey.new ([] : List G) = none) ∧
      (∀ points : List G, points ≠ [] → CommitKey.new points = some ⟨points⟩) ∧
      (∀ points : List G, points.length ≤ 1 →
        CommitKeyLagrange.new points = none) ∧
      (∀ points : List G, 1 < points.length →
        CommitKeyLagrange.new points = some ⟨points⟩) := by
  refine ⟨rfl, ?_, ?_, ?_⟩
  · intro points h
    rw [CommitKey.new, if_neg (by simpa [List.isEmpty_iff] using h)]
  · intro points h
    rw [CommitKeyLagrange.new, if_neg (by omega)]
  · intro points h
    rw [CommitKeyLagrange.new, if_pos h]

/-- Witness for claim C7 on concrete point vectors modulo 17. -/
theorem commit_key_new_spec_witness :
    CommitKey.new ([5] : List (ZMod 17)) = some ⟨[5]⟩ ∧
      CommitKeyLagrange.new ([5] : List (ZMod 17)) = none ∧
      CommitKeyLagrange.new ([5, 6] : List (ZMod 17)) = some ⟨[5, 6]⟩ :=
  ⟨commit_key_new_spec.2.1 [5] (by decide),
    commit_key_new_spec.2.2.1 [5] (by decide),
    commit_key_new_spec.2.2.2 [5, 6] (by decide)⟩

/-- Counterexample to claim C8 as stated: a valid size-one domain (size `2^0`
with the primitive first root of unity 1) turns the nonempty one-point
monomial key produced by `CommitKey::new` into a Lagrange key of length one,
not greater than one. -/
theorem lagrange_key_length_one :
    CommitKey.new ([1] : List (ZMod 17)) = some ⟨[1]⟩ ∧
      ((CommitKey.mk ([1] : List (ZMod 17))).into_lagrange dom1).inner.length
        = 1 ∧
      ¬ 1 < ((CommitKey.mk ([1] : List (ZMod 17))).into_lagrange
          dom1).inner.length := by
  have hlen :
      ((CommitKey.mk ([1] : List (ZMod 17))).into_lagrange dom1).inner.length
        = 1 := by
    simp [CommitKey.into_lagrange, Domain.ifft_g1, dom1]
  exact ⟨rfl, hlen, by rw [hlen]; exact lt_irrefl 1⟩

/-- Claim C8 (amended): every `CommitKeyLagrange` produced by
`CommitKeyLagrange::new` has length greater than one; one produced by
`CommitKey::into_lagrange` has length equal to the domain size, hence greater
than one whenever the domain has size greater than one (a size-one domain
yields a length-one key); and `max_degree` returns length minus one. -/
theorem lagrange_key_invariants (points : List G) (key : CommitKeyLagrange G)
    (hnew : CommitKeyLagrange.new points = some key)
    (monoKey : CommitKey G) (d : Domain F) (hd : 1 < d.n) :
    1 < key.inner.length ∧ key.max_degree = key.inner.length - 1 ∧
      (monoKey.into_lagrange d).inner.length = d.n ∧
      1 < (monoKey.into_lagrange d).inner.length ∧
      (monoKey.into_lagrange d).max_degree
        = (monoKey.into_lagrange d).inner.length - 1 := by
  have h1 : 1 < key.inner.length := by
    by_cases h : 1 < points.length
    · rw [CommitKeyLagrange.new, if_pos h] at hnew
      cases hnew
      simpa using h
    · rw [CommitKeyLagrange.new, if_neg h] at hnew
      cases hnew
  have hlen : (monoKey.into_lagrange d).inner.length = d.n := by
    simp [CommitKey.into_lagrange, Domain.ifft_g1]
  exact ⟨h1, rfl, hlen, by rw [hlen]; exact hd, rfl⟩

/-- Witness for the amended claim C8 on a two-point Lagrange key and the
size-16 domain modulo 17. -/
theorem lagrange_key_invariants_witness :
    1 < (⟨[5, 6]⟩ : CommitKeyLagrange (ZMod 17)).inner.length ∧
      (⟨[5, 6]⟩ : CommitKeyLagrange (ZMod 17)).max_degree
        = (⟨[5, 6]⟩ : CommitKeyLagrange (ZMod 17)).inner.length - 1 ∧
      ((CommitKey.mk ([3] : List (ZMod 17))).into_lagrange dom16).inner.length
        = dom16.n ∧
      1 < ((CommitKey.mk ([3] : List (ZMod 17))).into_lagrange
          dom16).inner.length ∧
      ((CommitKey.mk ([3] : List (ZMod 17))).into_lagrange dom16).max_degree
        = ((CommitKey.mk ([3] : List (ZMod 17))).into_lagrange
            dom16).inner.length - 1 :=
  lagrange_key_invariants [5, 6] ⟨[5, 6]⟩ (by decide)
    (CommitKey.mk [3]) dom16 (by decide)

/-- Counterexample to claim C9 as stated: five scalars on two available
workers give chunk size `max(5/2, 1) = 2` and three chunks, so the number of
chunks exceeds the number of available workers. -/
theorem chunk_count_exceeds_workers :
    (chunksOf (chunkSize 2 ([1, 2, 3, 4, 5] : List (ZMod 17)).length)
        [1, 2, 3, 4, 5]).length = 3 ∧
      ¬ (chunksOf (chunkSize 2 ([1, 2, 3, 4, 5] : List (ZMod 17)).length)
          [1, 2, 3, 4, 5]).length ≤ 2 := by
  have h : (chunksOf (chunkSize 2 ([1, 2, 3, 4, 5] : List (ZMod 17)).length)
      [1, 2, 3, 4, 5]).length = 3 := by
    rw [chunksOf_length _ (chunkSize_ne_zero _ _)]
    decide
  exact ⟨h, by rw [h]; decide⟩

/-- Claim C9 (amended): the parallel form of `batch_inversion` partitions the
slice into contiguous chunks of size `max(n / c, 1)` (integer division, last
chunk possibly smaller), every chunk is nonempty and the chunks concatenate
back to the slice; the number of chunks is `n / max(n/c,1)` rounded up, which
can exceed the number of available workers `c`. -/
theorem chunking_spec (numCpus : Nat) (v : List F) :
    (∀ ch ∈ chunksOf (chunkSize numCpus v.length) v,
        ch ≠ [] ∧ ch.length ≤ chunkSize numCpus v.length) ∧
      (chunksOf (chunkSize numCpus v.length) v).flatten = v ∧
      (chunksOf (chunkSize numCpus v.length) v).length
        = (v.length + chunkSize numCpus v.length - 1)
            / chunkSize numCpus v.length := by
  refine ⟨?_, ?_, ?_⟩
  · intro ch hch
    exact chunksOf_mem _ (chunkSize_ne_zero _ _) v ch hch
  · exact chunksOf_flatten _ (chunkSize_ne_zero _ _) v
  · exact chunksOf_length _ (chunkSize_ne_zero _ _) v

/-- Witness for the amended claim C9 on five scalars and two workers. -/
theorem chunking_spec_witness :
    (chunksOf (chunkSize 2 ([1, 2, 3, 4, 5] : List (ZMod 17)).length)
        ([1, 2, 3, 4, 5] : List (ZMod 17))).flatten = [1, 2, 3, 4, 5] ∧
      (chunksOf (chunkSize 2 ([1, 2, 3, 4, 5] : List (ZMod 17)).length)
          ([1, 2, 3, 4, 5] : List (ZMod 17))).length
        = (([1, 2, 3, 4, 5] : List (ZMod 17)).length
            + chunkSize 2 ([1, 2, 3, 4, 5] : List (ZMod 17)).length - 1)
            / chunkSize 2 ([1, 2, 3, 4, 5] : List (ZMod 17)).length :=
  ⟨(chunking_spec 2 ([1, 2, 3, 4, 5] : List (ZMod 17))).2.1,
    (chunking_spec 2 ([1, 2, 3, 4, 5] : List (ZMod 17))).2.2⟩

/-- Claim C10: `serial_batch_inversion` is total: on every input, including
the empty slice and all-zero slices, the running product over the nonzero
entries is nonzero (so the single internal field inversion never fails) and
the function terminates with a result. -/
theorem serial_batch_inversion_total (v : List F) :
    (firstPass v 1).2 ≠ 0 ∧ (serial_batch_inversion v).isSome = true := by
  refine ⟨firstPass_snd_ne_zero v 1 one_ne_zero, ?_⟩
  rw [serial_batch_inversion_eq_map]
  rfl

/-- Witness for claim C10 on the all-zero vector `[0, 0]` modulo 17. -/
theorem serial_batch_inversion_total_witness :
    (firstPass ([0, 0] : List (ZMod 17)) 1).2 ≠ 0 ∧
      (serial_batch_inversion ([0, 0] : List (ZMod 17))).isSome = true :=
  serial_batch_inversion_total [0, 0]

end Claims
